import Mathlib

/-!
# stacktrace: merged stack traces of wrapped errors

A shallow embedding of `stacktrace.go` (package `stacktrace`).

Modelling conventions.

* A Go `string` is a Lean `String`; `len`, `strings.HasSuffix`, `strings.Split` and the
  slice `curr[:n]` act on the character sequence `String.data`.  For the texts involved
  (valid UTF-8, with the ASCII separators `"\n\t"` and `": "`) the byte-level operations of
  Go cut at the same places.
* A Go slice of frames is an `Option (List Frame)`: `none` is the `nil` slice, which
  `New` tests for with `innerST == nil`.
* A Go `error` value is a finite chain `GoError`: `GoError.nil` is the `nil` error and
  `GoError.err msg tracer inner` is an error whose `Error()` is `msg`, whose
  `errors.Unwrap` is `inner`, and which implements `stackTracer` exactly when `tracer`
  is `some stack`; `stack` lists, in capture order, the text `fmt.Sprintf("%+v", f)` of
  every frame `f` of `tracer.StackTrace()`.
-/

namespace Stacktrace

/-- Frame of `stacktrace.go`: partial string representation of an `errors.Frame`. -/
structure Frame where
  Message : String
  FuncName : String
  Source : String
deriving DecidableEq, Repr

/-- StackTrace of `stacktrace.go`, a slice of frames; `none` is the `nil` slice. -/
abbrev StackTrace := Option (List Frame)

/-- The elements of a slice; the `nil` slice has none. -/
def StackTrace.frames : StackTrace → List Frame
  | none => []
  | some fs => fs

/-- An error value together with everything `errors.Unwrap` reaches from it. -/
inductive GoError where
  | nil : GoError
  | err (msg : String) (tracer : Option (List String)) (inner : GoError) : GoError
deriving Repr

/-- Loop of `strings.Split(s, sep)` for a non-empty `sep`: `skip` counts the characters of
a separator occurrence still to be passed over, `acc` is the current piece, reversed. -/
def SplitAux (sep : List Char) : List Char → Nat → List Char → List (List Char)
  | [], _, acc => [acc.reverse]
  | _ :: cs, skip + 1, acc => SplitAux sep cs skip acc
  | c :: cs, 0, acc =>
    if sep.isPrefixOf (c :: cs) then acc.reverse :: SplitAux sep cs (sep.length - 1) []
    else SplitAux sep cs 0 (c :: acc)

/-- Go `strings.Split(s, sep)` for a non-empty `sep`: the pieces of `s` between the
leftmost non-overlapping occurrences of `sep`. -/
def Split (s sep : String) : List String :=
  (SplitAux sep.data s.data 0 []).map String.mk

/-- Go `strings.HasSuffix(s, suffix)`. -/
def HasSuffix (s suffix : String) : Bool :=
  suffix.data.isSuffixOf s.data

/-- Go slice expression `s[:n]`. -/
def sliceTo (s : String) (n : Nat) : String :=
  String.mk (s.data.take n)

/-- Body of the loop `for _, f := range tracer.StackTrace()` of `New`: `s` is
`fmt.Sprintf("%+v", f)`. -/
def appendFrame (msg : String) (st : List Frame) (s : String) : List Frame :=
  let ss := Split s "\n\t"
  if ss.length > 1 then st ++ [{ Message := msg, FuncName := ss.getD 0 "", Source := ss.getD 1 "" }]
  else st

/-- The slice `st` that `New` builds from the captured entries of one error. -/
def ownFrames (msg : String) (stack : List String) : List Frame :=
  stack.foldl (appendFrame msg) []

/-- Condition of the merge loop: same `FuncName` and same `Source`. -/
def sameKey (a b : Frame) : Bool :=
  a.FuncName == b.FuncName && a.Source == b.Source

/-- Inner loop `for j := 0; j < len(innerST); j++` of the merge for one `st[i]`: the first
`j` whose frame has the key of `f`. -/
def innerLoop (f : Frame) : List Frame → Option Nat
  | [] => none
  | g :: gs => if sameKey f g then some 0 else (innerLoop f gs).map Nat.succ

/-- Labelled loop of the merge: the value of `idx` on exit, `none` standing for `-1`. -/
def mergeIdx : List Frame → List Frame → Option Nat
  | [], _ => none
  | f :: fs, innerST =>
    match innerLoop f innerST with
    | some j => some j
    | none => mergeIdx fs innerST

/-- New of `stacktrace.go`: extracts the StackTrace from error `err`. -/
def New : GoError → StackTrace
  | GoError.nil => none
  | GoError.err msg tracer inner =>
    let innerST := New inner
    match tracer with
    | none => innerST
    | some stack =>
      let st := ownFrames msg stack
      match innerST with
      | none => some st
      | some innerFrames =>
        match mergeIdx st innerFrames with
        | some idx => some (innerFrames.take idx ++ st)
        | none => some (innerFrames ++ st)

/-- The message line of one frame: `curr` after the suffix trim against `prev`. -/
def displayMsg (curr prev : String) : String :=
  if HasSuffix curr (": " ++ prev) then sliceTo curr (curr.length - prev.length - 2)
  else curr

/-- Loop `for _, f := range st` of `strings`, with the loop variables `prevMsg` and
`prevFunc` passed explicitly; the result is what the loop appends to `ss`. -/
def stringsLoop (funcName : Bool) : List Frame → String → String → List String
  | [], _, _ => []
  | f :: rest, prevMsg, prevFunc =>
    (if f.Message ≠ prevMsg then [displayMsg f.Message prevMsg] else [])
      ++ (if funcName ∧ (f.Message ≠ prevMsg ∨ f.FuncName ≠ prevFunc) then [f.FuncName] else [])
      ++ (if f.Source ≠ "" then ["\t" ++ f.Source] else [])
      ++ stringsLoop funcName rest f.Message f.FuncName

/-- Method `strings` of `StackTrace`; a `nil` result is the empty list. -/
def strings (funcName : Bool) (st : StackTrace) : List String :=
  if st.frames.length = 0 then [] else stringsLoop funcName st.frames "" ""

/-- Kind of a rendered line: which of the three `append`s of the loop emitted it. -/
inductive LineKind where
  | message
  | function
  | source
deriving DecidableEq, Repr

/-- The loop of `strings` again, each line labelled with the `append` that emitted it. -/
def labelledLoop (funcName : Bool) : List Frame → String → String → List (LineKind × String)
  | [], _, _ => []
  | f :: rest, prevMsg, prevFunc =>
    (if f.Message ≠ prevMsg then [(LineKind.message, displayMsg f.Message prevMsg)] else [])
      ++ (if funcName ∧ (f.Message ≠ prevMsg ∨ f.FuncName ≠ prevFunc)
          then [(LineKind.function, f.FuncName)] else [])
      ++ (if f.Source ≠ "" then [(LineKind.source, "\t" ++ f.Source)] else [])
      ++ labelledLoop funcName rest f.Message f.FuncName

/-- The lines of `strings`, labelled. -/
def labelledStrings (funcName : Bool) (st : StackTrace) : List (LineKind × String) :=
  if st.frames.length = 0 then [] else labelledLoop funcName st.frames "" ""

/-- The message lines among the lines of `strings`, in order. -/
def messageLines (funcName : Bool) (st : StackTrace) : List String :=
  ((labelledStrings funcName st).filter (fun l => l.1 = LineKind.message)).map Prod.snd

/-- No error of the chain implements `stackTracer`. -/
def noTracer : GoError → Bool
  | GoError.nil => true
  | GoError.err _ tracer inner => tracer.isNone && noTracer inner

/-- The frame `New` makes of a captured entry `s` that passes its test, for an error with
message `msg`. -/
def entryFrame (msg s : String) : Frame :=
  { Message := msg, FuncName := (Split s "\n\t").getD 0 "", Source := (Split s "\n\t").getD 1 "" }

/-- The test of `New` on a captured entry: `len(ss) > 1`. -/
def usable (s : String) : Bool :=
  decide ((Split s "\n\t").length > 1)

/-- The `(FuncName, Source)` of the frame made of a captured entry. -/
def entryKey (s : String) : String × String :=
  ((Split s "\n\t").getD 0 "", (Split s "\n\t").getD 1 "")

/-- A chain in which every error captured a stack and each stack is the stack of the error
it unwraps to without its first entry.  `items` lists the errors outermost first, each as
its message and the first entry of its stack; `tail` is the rest of the stack of the
outermost error. -/
def suffixChain : List (String × String) → List String → GoError
  | [], _ => GoError.nil
  | (msg, g) :: rest, tail =>
    GoError.err msg (some (g :: tail)) (suffixChain rest (g :: tail))

/-- The messages along a chain of wraps: `m`, then `p ++ ": " ++ m` for the first prefix
`p`, then the next prefix put before that message in the same way, and so on. -/
def wrapChain (m : String) : List String → List String
  | [] => [m]
  | p :: ps => m :: wrapChain (p ++ ": " ++ m) ps

/-- Go `strings.Join(elems, sep)`. -/
def Join : List String → String → String
  | [], _ => ""
  | [a], _ => a
  | a :: rest, sep => rest.foldl (fun b s => b ++ sep ++ s) a

/-- The part of a `fmt.State` that `Format` uses: the flags of the directive, and the text
written to the state so far. -/
structure State where
  Flag : Char → Bool
  written : String

/-- Go `io.WriteString(s, x)` on a `fmt.State`; `Format` ignores its results. -/
def WriteString (s : State) (x : String) : State :=
  { s with written := s.written ++ x }

/-- Method `String` of `StackTrace`. -/
def StackTrace.String (st : StackTrace) : String :=
  Join (strings true st) "\n"

/-- Method `Format` of `StackTrace`: the state after the call. -/
def StackTrace.Format (st : StackTrace) (s : State) (verb : Char) : State :=
  if verb = 'v' then
    let ss := strings (s.Flag '+') st
    WriteString s (Join ss "\n")
  else if verb = 's' then
    WriteString s (StackTrace.String st)
  else
    s

/-- The function-name lines among the lines of `strings`, in order. -/
def functionLines (funcName : Bool) (st : StackTrace) : List String :=
  ((labelledStrings funcName st).filter (fun l => l.1 = LineKind.function)).map Prod.snd

/-- The source lines among the lines of `strings`, in order. -/
def sourceLines (funcName : Bool) (st : StackTrace) : List String :=
  ((labelledStrings funcName st).filter (fun l => l.1 = LineKind.source)).map Prod.snd

/-- The errors of a chain that implement `stackTracer`, innermost first, each as its
message and its captured entries. -/
def captures : GoError → List (String × List String)
  | GoError.nil => []
  | GoError.err _ none inner => captures inner
  | GoError.err msg (some stack) inner => captures inner ++ [(msg, stack)]

end Stacktrace

namespace Stacktrace

/-! ### The frames of one error -/

theorem appendFrame_acc (msg : String) (acc : List Frame) (s : String) :
    appendFrame msg acc s = acc ++ appendFrame msg [] s := by
  simp only [appendFrame]
  split <;> simp

theorem foldl_appendFrame (msg : String) (stack : List String) (acc : List Frame) :
    stack.foldl (appendFrame msg) acc = acc ++ stack.foldl (appendFrame msg) [] := by
  induction stack generalizing acc with
  | nil => simp
  | cons s rest ih =>
    simp only [List.foldl_cons]
    rw [ih (appendFrame msg acc s), ih (appendFrame msg [] s), appendFrame_acc msg acc s,
      List.append_assoc]

theorem ownFrames_nil (msg : String) : ownFrames msg [] = [] := rfl

theorem ownFrames_cons (msg s : String) (rest : List String) :
    ownFrames msg (s :: rest) = appendFrame msg [] s ++ ownFrames msg rest := by
  unfold ownFrames
  rw [List.foldl_cons, foldl_appendFrame]

theorem ownFrames_append (msg : String) (l₁ l₂ : List String) :
    ownFrames msg (l₁ ++ l₂) = ownFrames msg l₁ ++ ownFrames msg l₂ := by
  unfold ownFrames
  rw [List.foldl_append, foldl_appendFrame]

/-! ### The merge loops -/

theorem innerLoop_eq_none {f : Frame} {T : List Frame}
    (h : ∀ b ∈ T, sameKey f b = false) : innerLoop f T = none := by
  induction T with
  | nil => rfl
  | cons g gs ih =>
    have hg : sameKey f g = false := h g (List.mem_cons_self _ _)
    have hgs : innerLoop f gs = none := ih (fun b hb => h b (List.mem_cons_of_mem _ hb))
    simp [innerLoop, hg, hgs]

theorem innerLoop_eq_some_of_first {f : Frame} {T : List Frame} {j : Nat} {b : Frame}
    (hb : T[j]? = some b) (hk : sameKey f b = true)
    (hmin : ∀ (j' : Nat) (b' : Frame), j' < j → T[j']? = some b' → sameKey f b' = false) :
    innerLoop f T = some j := by
  induction T generalizing j with
  | nil => simp at hb
  | cons g gs ih =>
    cases j with
    | zero =>
      simp only [List.getElem?_cons_zero, Option.some.injEq] at hb
      subst hb
      simp [innerLoop, hk]
    | succ j =>
      have hg : sameKey f g = false := hmin 0 g (Nat.succ_pos _) (by simp)
      have hrest : innerLoop f gs = some j := by
        apply ih (by simpa using hb)
        intro j' b' hj' hb'
        exact hmin (j' + 1) b' (Nat.succ_lt_succ hj') (by simpa using hb')
      simp [innerLoop, hg, hrest]

theorem innerLoop_some_spec {f : Frame} {T : List Frame} {j : Nat}
    (h : innerLoop f T = some j) :
    (∃ b, T[j]? = some b ∧ sameKey f b = true) ∧
      ∀ (j' : Nat) (b' : Frame), j' < j → T[j']? = some b' → sameKey f b' = false := by
  induction T generalizing j with
  | nil => simp [innerLoop] at h
  | cons g gs ih =>
    unfold innerLoop at h
    by_cases hg : sameKey f g = true
    · simp only [hg, if_true, Option.some.injEq] at h
      subst h
      exact ⟨⟨g, by simp, hg⟩, fun j' b' hj' _ => absurd hj' (Nat.not_lt_zero _)⟩
    · simp only [hg, Bool.false_eq_true, if_false, Option.map_eq_some'] at h
      obtain ⟨k, hk, rfl⟩ := h
      obtain ⟨⟨b, hb, hkb⟩, hmin⟩ := ih hk
      refine ⟨⟨b, by simpa using hb, hkb⟩, ?_⟩
      intro j' b' hj' hb'
      cases j' with
      | zero =>
        simp only [List.getElem?_cons_zero, Option.some.injEq] at hb'
        subst hb'
        simpa using hg
      | succ j' =>
        exact hmin j' b' (Nat.lt_of_succ_lt_succ hj') (by simpa using hb')

theorem innerLoop_none_spec {f : Frame} {T : List Frame} (h : innerLoop f T = none) :
    ∀ b ∈ T, sameKey f b = false := by
  induction T with
  | nil => simp
  | cons g gs ih =>
    unfold innerLoop at h
    by_cases hg : sameKey f g = true
    · simp [hg] at h
    · simp only [hg, Bool.false_eq_true, if_false, Option.map_eq_none'] at h
      intro b hb
      rcases List.mem_cons.1 hb with rfl | hb
      · simpa using hg
      · exact ih h b hb

theorem mergeIdx_eq_none {O T : List Frame}
    (h : ∀ a ∈ O, ∀ b ∈ T, sameKey a b = false) : mergeIdx O T = none := by
  induction O with
  | nil => rfl
  | cons f fs ih =>
    have hf : innerLoop f T = none := innerLoop_eq_none (h f (List.mem_cons_self _ _))
    have hfs : mergeIdx fs T = none := ih (fun a ha => h a (List.mem_cons_of_mem _ ha))
    simp [mergeIdx, hf, hfs]

theorem mergeIdx_eq_some_of_first {O T : List Frame} {i j : Nat} {a : Frame}
    (ha : O[i]? = some a) (hj : innerLoop a T = some j)
    (hmin : ∀ (i' : Nat) (a' : Frame), i' < i → O[i']? = some a' → innerLoop a' T = none) :
    mergeIdx O T = some j := by
  induction O generalizing i with
  | nil => simp at ha
  | cons f fs ih =>
    cases i with
    | zero =>
      simp only [List.getElem?_cons_zero, Option.some.injEq] at ha
      subst ha
      simp [mergeIdx, hj]
    | succ i =>
      have hf : innerLoop f T = none := hmin 0 f (Nat.succ_pos _) (by simp)
      have hrest : mergeIdx fs T = some j := by
        apply ih (by simpa using ha)
        intro i' a' hi' ha'
        exact hmin (i' + 1) a' (Nat.succ_lt_succ hi') (by simpa using ha')
      simp [mergeIdx, hf, hrest]

theorem mergeIdx_some_spec {O T : List Frame} {j : Nat} (h : mergeIdx O T = some j) :
    ∃ (i : Nat) (a : Frame), O[i]? = some a ∧ innerLoop a T = some j ∧
      ∀ (i' : Nat) (a' : Frame), i' < i → O[i']? = some a' → innerLoop a' T = none := by
  induction O with
  | nil => simp [mergeIdx] at h
  | cons f fs ih =>
    unfold mergeIdx at h
    cases hf : innerLoop f T with
    | some k =>
      simp only [hf, Option.some.injEq] at h
      subst h
      exact ⟨0, f, by simp, hf, fun i' a' hi' _ => absurd hi' (Nat.not_lt_zero _)⟩
    | none =>
      simp only [hf] at h
      obtain ⟨i, a, ha, hj, hmin⟩ := ih h
      refine ⟨i + 1, a, by simpa using ha, hj, ?_⟩
      intro i' a' hi' ha'
      cases i' with
      | zero =>
        simp only [List.getElem?_cons_zero, Option.some.injEq] at ha'
        subst ha'
        exact hf
      | succ i' =>
        exact hmin i' a' (Nat.lt_of_succ_lt_succ hi') (by simpa using ha')

theorem mergeIdx_none_spec {O T : List Frame} (h : mergeIdx O T = none) :
    ∀ a ∈ O, ∀ b ∈ T, sameKey a b = false := by
  induction O with
  | nil => simp
  | cons f fs ih =>
    unfold mergeIdx at h
    cases hf : innerLoop f T with
    | some k => simp [hf] at h
    | none =>
      simp only [hf] at h
      intro a ha
      rcases List.mem_cons.1 ha with rfl | ha
      · exact innerLoop_none_spec hf
      · exact ih h a ha

/-- The value of `idx` when `(i, j)` is the first matching pair in loop order. -/
theorem mergeIdx_of_lex_first {O T : List Frame} {i j : Nat} {a b : Frame}
    (ha : O[i]? = some a) (hb : T[j]? = some b) (hk : sameKey a b = true)
    (hmin : ∀ (i' j' : Nat) (a' b' : Frame), O[i']? = some a' → T[j']? = some b' →
      sameKey a' b' = true →
      i < i' ∨ (i = i' ∧ j ≤ j')) :
    mergeIdx O T = some j := by
  apply mergeIdx_eq_some_of_first ha
  · apply innerLoop_eq_some_of_first hb hk
    intro j' b' hj' hb'
    cases hkb : sameKey a b' with
    | false => rfl
    | true =>
      rcases hmin i j' a b' ha hb' hkb with h | ⟨_, h⟩
      · exact absurd h (Nat.lt_irrefl _)
      · exact absurd hj' (Nat.not_lt.2 h)
  · intro i' a' hi' ha'
    apply innerLoop_eq_none
    intro b' hb'
    obtain ⟨j', hj'⟩ := List.mem_iff_getElem?.1 hb'
    cases hkb : sameKey a' b' with
    | false => rfl
    | true =>
      rcases hmin i' j' a' b' ha' hj' hkb with h | ⟨h, _⟩
      · exact absurd hi' (Nat.lt_asymm h)
      · exact absurd hi' (by omega)

/-! ### Unfolding `New` -/

theorem New_not_tracer (msg : String) (inner : GoError) :
    New (GoError.err msg none inner) = New inner := by
  simp [New]

theorem New_tracer_none (msg : String) (stack : List String) (inner : GoError)
    (h : New inner = none) :
    New (GoError.err msg (some stack) inner) = some (ownFrames msg stack) := by
  simp [New, h]

theorem New_tracer_some (msg : String) (stack : List String) (inner : GoError)
    (T : List Frame) (h : New inner = some T) :
    New (GoError.err msg (some stack) inner) =
      match mergeIdx (ownFrames msg stack) T with
      | some idx => some (T.take idx ++ ownFrames msg stack)
      | none => some (T ++ ownFrames msg stack) := by
  simp [New, h]

end Stacktrace

namespace Stacktrace

theorem sameKey_iff (a b : Frame) :
    sameKey a b = true ↔ a.FuncName = b.FuncName ∧ a.Source = b.Source := by
  simp [sameKey]

theorem sameKey_eq_false_iff (a b : Frame) :
    sameKey a b = false ↔ ¬ (a.FuncName = b.FuncName ∧ a.Source = b.Source) := by
  rw [← sameKey_iff]; simp

theorem SplitAux_ne_nil (sep s : List Char) (skip : Nat) (acc : List Char) :
    SplitAux sep s skip acc ≠ [] := by
  induction s generalizing skip acc with
  | nil => simp [SplitAux]
  | cons c cs ih =>
    cases skip with
    | succ k => simpa [SplitAux] using ih k acc
    | zero =>
      simp only [SplitAux]
      split
      · simp
      · exact ih 0 (c :: acc)

theorem Split_length_pos (s sep : String) : 1 ≤ (Split s sep).length := by
  have h := SplitAux_ne_nil sep.data s.data 0 []
  simp only [Split, List.length_map]
  exact List.length_pos.2 h

/-! ### Claims on `New` -/

/-- C1: merge rule of New.  For an error that exposes captured frames, with own frames
`O = ownFrames msg stack` and inner trace `T = New inner` (non-empty, since it has an entry
at `j`): when `O[i]` and `T[j]` agree on `(FuncName, Source)` and `(i, j)` is the
lexicographically smallest such pair, `New` returns the first `j` frames of `T` followed by
`O`.  In particular `O = [A, B, C]` and `T = [X, C, Y, Z]` with pairwise distinct keys give
`[X, A, B, C]`. -/
theorem New_merge_rule :
    (∀ (msg : String) (stack : List String) (inner : GoError) (T : List Frame)
        (i j : Nat) (a b : Frame),
      New inner = some T → T ≠ [] →
      (ownFrames msg stack)[i]? = some a → T[j]? = some b → sameKey a b = true →
      (∀ (i' j' : Nat) (a' b' : Frame), (ownFrames msg stack)[i']? = some a' →
        T[j']? = some b' → sameKey a' b' = true → i < i' ∨ (i = i' ∧ j ≤ j')) →
      New (GoError.err msg (some stack) inner) = some (T.take j ++ ownFrames msg stack)) ∧
    (∀ (msg : String) (stack : List String) (inner : GoError) (A B C X C' Y Z : Frame),
      ownFrames msg stack = [A, B, C] → New inner = some [X, C', Y, Z] →
      sameKey C C' = true →
      List.Pairwise (fun x y => sameKey x y = false) [A, B, C, X, Y, Z] →
      New (GoError.err msg (some stack) inner) = some [X, A, B, C]) := by
  constructor
  · intro msg stack inner T i j a b hT _ ha hb hk hmin
    rw [New_tracer_some msg stack inner T hT, mergeIdx_of_lex_first ha hb hk hmin]
  · intro msg stack inner A B C X C' Y Z hO hT hC hd
    rw [New_tracer_some msg stack inner _ hT, hO]
    simp only [List.pairwise_cons, List.mem_cons, List.mem_singleton, forall_eq_or_imp,
      forall_eq, List.not_mem_nil, false_implies, implies_true, and_true,
      List.Pairwise.nil] at hd
    obtain ⟨⟨_, _, hAX, hAY, hAZ⟩, ⟨hBC, hBX, hBY, hBZ⟩, ⟨hCX, hCY, hCZ⟩, _⟩ := hd
    have hAC : sameKey A C = false := by assumption
    have hAC' : sameKey A C' = false := by
      rw [sameKey_eq_false_iff] at hAC ⊢
      rw [sameKey_iff] at hC
      rw [← hC.1, ← hC.2]; exact hAC
    have hBC' : sameKey B C' = false := by
      rw [sameKey_eq_false_iff] at hBC ⊢
      rw [sameKey_iff] at hC
      rw [← hC.1, ← hC.2]; exact hBC
    simp [mergeIdx, innerLoop, hAX, hAC', hAY, hAZ, hBX, hBC', hBY, hBZ, hCX, hC]

/-- Instances of C1: a one-frame error over a two-frame inner trace, and the
`[A, B, C]` over `[X, C, Y, Z]` example. -/
theorem New_merge_rule_witness :
    New (GoError.err "A" (some ["c\n\tc.go:3"])
        (GoError.err "B" (some ["x\n\tx.go:1", "c\n\tc.go:3"]) GoError.nil))
      = some [⟨"B", "x", "x.go:1"⟩, ⟨"A", "c", "c.go:3"⟩] ∧
    New (GoError.err "A" (some ["a\n\ta.go:1", "b\n\tb.go:2", "c\n\tc.go:3"])
        (GoError.err "B" (some ["x\n\tx.go:1", "c\n\tc.go:3", "y\n\ty.go:4", "z\n\tz.go:5"])
          GoError.nil))
      = some [⟨"B", "x", "x.go:1"⟩, ⟨"A", "a", "a.go:1"⟩, ⟨"A", "b", "b.go:2"⟩,
          ⟨"A", "c", "c.go:3"⟩] :=
  ⟨New_merge_rule.1 "A" ["c\n\tc.go:3"]
      (GoError.err "B" (some ["x\n\tx.go:1", "c\n\tc.go:3"]) GoError.nil)
      [⟨"B", "x", "x.go:1"⟩, ⟨"B", "c", "c.go:3"⟩] 0 1 ⟨"A", "c", "c.go:3"⟩ ⟨"B", "c", "c.go:3"⟩
      (by decide) (by decide) (by decide) (by decide) (by decide)
      (by
        intro i' j' a' b' h1 h2 h3
        have hO : ownFrames "A" ["c\n\tc.go:3"] = [⟨"A", "c", "c.go:3"⟩] := by decide
        rw [hO] at h1
        rcases i' with _ | i'
        · rcases j' with _ | _ | j'
          · simp only [List.getElem?_cons_zero, Option.some.injEq] at h1 h2
            subst h1 h2
            exact absurd h3 (by decide)
          · exact Or.inr ⟨rfl, Nat.le_refl _⟩
          · exact Or.inr ⟨rfl, by omega⟩
        · exact Or.inl (Nat.succ_pos _)),
    New_merge_rule.2 "A" ["a\n\ta.go:1", "b\n\tb.go:2", "c\n\tc.go:3"]
      (GoError.err "B" (some ["x\n\tx.go:1", "c\n\tc.go:3", "y\n\ty.go:4", "z\n\tz.go:5"])
        GoError.nil)
      ⟨"A", "a", "a.go:1"⟩ ⟨"A", "b", "b.go:2"⟩ ⟨"A", "c", "c.go:3"⟩ ⟨"B", "x", "x.go:1"⟩
      ⟨"B", "c", "c.go:3"⟩ ⟨"B", "y", "y.go:4"⟩ ⟨"B", "z", "z.go:5"⟩
      (by decide) (by decide) (by decide) (by decide)⟩

/-- C2: no reconvergence.  For an error that exposes captured frames, when no own frame
has the `(FuncName, Source)` of a frame of the inner trace `T = New inner`, the frames of
`New` are all of `T`, unchanged and in order, followed by the own frames. -/
theorem New_no_reconvergence (msg : String) (stack : List String) (inner : GoError)
    (h : ∀ a ∈ ownFrames msg stack, ∀ b ∈ (New inner).frames, sameKey a b = false) :
    (New (GoError.err msg (some stack) inner)).frames
      = (New inner).frames ++ ownFrames msg stack := by
  cases hT : New inner with
  | none => simp [New_tracer_none msg stack inner hT, StackTrace.frames]
  | some T =>
    rw [hT] at h
    have h' : ∀ a ∈ ownFrames msg stack, ∀ b ∈ T, sameKey a b = false := h
    rw [New_tracer_some msg stack inner T hT, mergeIdx_eq_none h']
    simp [StackTrace.frames]

/-- Instance of C2: frames `a`, `b` over an inner trace `x`, `y`. -/
theorem New_no_reconvergence_witness :
    (New (GoError.err "A" (some ["a\n\ta.go:1", "b\n\tb.go:2"])
        (GoError.err "B" (some ["x\n\tx.go:1", "y\n\ty.go:4"]) GoError.nil))).frames
      = (New (GoError.err "B" (some ["x\n\tx.go:1", "y\n\ty.go:4"]) GoError.nil)).frames
          ++ ownFrames "A" ["a\n\ta.go:1", "b\n\tb.go:2"] :=
  New_no_reconvergence "A" ["a\n\ta.go:1", "b\n\tb.go:2"]
    (GoError.err "B" (some ["x\n\tx.go:1", "y\n\ty.go:4"]) GoError.nil) (by decide)

/-- C4: pass-through.  A non-nil error that does not implement `stackTracer` yields exactly
the trace of the error it unwraps to. -/
theorem New_pass_through (msg : String) (inner : GoError) :
    New (GoError.err msg none inner) = New inner :=
  New_not_tracer msg inner

/-- C5: empty results.  `New` of the nil error is the nil trace, and so is `New` of every
chain, of any length, in which no error implements `stackTracer`; `New` is total. -/
theorem New_empty :
    New GoError.nil = none ∧
    (∀ e : GoError, noTracer e = true → New e = none ∧ (New e).frames = []) := by
  refine ⟨rfl, ?_⟩
  intro e
  induction e with
  | nil => intro _; exact ⟨rfl, rfl⟩
  | err msg tracer inner ih =>
    intro h
    simp only [noTracer, Bool.and_eq_true, Option.isNone_iff_eq_none] at h
    obtain ⟨ht, hi⟩ := h
    subst ht
    rw [New_not_tracer]
    exact ih hi

/-- Instance of C5: a chain of three errors without captured frames. -/
theorem New_empty_witness :
    New (GoError.err "a: b: c" none (GoError.err "b: c" none (GoError.err "c" none GoError.nil)))
      = none :=
  (New_empty.2 (GoError.err "a: b: c" none (GoError.err "b: c" none
    (GoError.err "c" none GoError.nil))) (by decide)).1

theorem appendFrame_nil (msg s : String) :
    appendFrame msg [] s =
      if 2 ≤ (Split s "\n\t").length then
        [{ Message := msg, FuncName := (Split s "\n\t").getD 0 "",
           Source := (Split s "\n\t").getD 1 "" }]
      else [] := by
  simp only [appendFrame, List.nil_append]
  rfl

theorem ownFrames_eq_filterMap (msg : String) (stack : List String) :
    ownFrames msg stack = stack.filterMap (fun s =>
      if 2 ≤ (Split s "\n\t").length then
        some { Message := msg, FuncName := (Split s "\n\t").getD 0 "",
               Source := (Split s "\n\t").getD 1 "" }
      else none) := by
  induction stack with
  | nil => rfl
  | cons s rest ih =>
    rw [ownFrames_cons, ih, appendFrame_nil]
    by_cases h : 2 ≤ (Split s "\n\t").length
    · simp [List.filterMap_cons, h]
    · simp [List.filterMap_cons, h]

/-- C6: no inner trace.  For an error that exposes captured frames and whose inner trace
`New inner` has no frames (the nil slice or a slice of length zero), `New` returns the own
frames exactly: one frame for each captured entry that passes the test of the loop, in
capture order, with `Message` the message of the error itself and `FuncName`, `Source` the
first two parts of the entry. -/
theorem New_no_inner (msg : String) (stack : List String) (inner : GoError)
    (h : (New inner).frames = []) :
    New (GoError.err msg (some stack) inner) = some (ownFrames msg stack) ∧
    ownFrames msg stack = stack.filterMap (fun s =>
      if 2 ≤ (Split s "\n\t").length then
        some { Message := msg, FuncName := (Split s "\n\t").getD 0 "",
               Source := (Split s "\n\t").getD 1 "" }
      else none) ∧
    (∀ f ∈ ownFrames msg stack, f.Message = msg) := by
  refine ⟨?_, ownFrames_eq_filterMap msg stack, ?_⟩
  · cases hT : New inner with
    | none => exact New_tracer_none msg stack inner hT
    | some T =>
      rw [hT] at h
      have hnil : T = [] := h
      subst hnil
      rw [New_tracer_some msg stack inner [] hT,
        mergeIdx_eq_none (fun _ _ b hb => absurd hb (List.not_mem_nil b))]
      simp
  · intro f hf
    rw [ownFrames_eq_filterMap, List.mem_filterMap] at hf
    obtain ⟨s, _, hs⟩ := hf
    split at hs
    · simp only [Option.some.injEq] at hs
      rw [← hs]
    · simp at hs

/-- Instance of C6: the inner error captured a stack with no frames, so its trace is a
slice of length zero that is not nil. -/
theorem New_no_inner_witness :
    New (GoError.err "A" (some ["a\n\ta.go:1", "unknown", "b\n\tb.go:2"])
        (GoError.err "B" (some []) GoError.nil))
      = some (ownFrames "A" ["a\n\ta.go:1", "unknown", "b\n\tb.go:2"]) :=
  (New_no_inner "A" ["a\n\ta.go:1", "unknown", "b\n\tb.go:2"]
    (GoError.err "B" (some []) GoError.nil) (by decide)).1

/-- C7, as stated, fails: an entry that splits on `"\n\t"` into three parts is not dropped;
it contributes a frame made of its first two parts. -/
theorem ownFrames_three_parts :
    Split "f\n\ta.go:1\n\tx" "\n\t" = ["f", "a.go:1", "x"] ∧
    ownFrames "m" ["f\n\ta.go:1\n\tx"] = [⟨"m", "f", "a.go:1"⟩] ∧
    ¬ (ownFrames "m" ["f\n\ta.go:1\n\tx"] ≠ [] ↔
        (Split "f\n\ta.go:1\n\tx" "\n\t").length = 2) := by
  decide

/-- C7, amended: a captured entry contributes a frame exactly when its text splits on
`"\n\t"` into at least two parts, and the frame takes the first part as `FuncName` and the
second as `Source`; an entry that splits into one part (a split never gives fewer) is
dropped, and the entries before and after it contribute as they would without it. -/
theorem ownFrames_entry (msg : String) (pre post : List String) (s : String) :
    1 ≤ (Split s "\n\t").length ∧
    ownFrames msg (pre ++ s :: post) =
      ownFrames msg pre ++
        (if 2 ≤ (Split s "\n\t").length then
          [{ Message := msg, FuncName := (Split s "\n\t").getD 0 "",
             Source := (Split s "\n\t").getD 1 "" }]
         else []) ++
        ownFrames msg post := by
  refine ⟨Split_length_pos s _, ?_⟩
  rw [ownFrames_append, ownFrames_cons, appendFrame_nil, List.append_assoc]

/-! ### Chains with shared stack suffixes -/

theorem sameKey_entryFrame (m m' a b : String) :
    sameKey (entryFrame m a) (entryFrame m' b) = true ↔ entryKey a = entryKey b := by
  simp [sameKey_iff, entryFrame, entryKey, Prod.ext_iff]

theorem ownFrames_of_usable (msg : String) (stack : List String)
    (h : ∀ s ∈ stack, usable s = true) :
    ownFrames msg stack = stack.map (entryFrame msg) := by
  induction stack with
  | nil => rfl
  | cons s rest ih =>
    have hs : (Split s "\n\t").length > 1 := by
      simpa [usable] using h s (List.mem_cons_self _ _)
    rw [ownFrames_cons, ih (fun t ht => h t (List.mem_cons_of_mem _ ht))]
    simp [appendFrame, hs, entryFrame]

theorem innerLoop_append_cons {f g : Frame} (P R : List Frame)
    (hP : ∀ b ∈ P, sameKey f b = false) (hg : sameKey f g = true) :
    innerLoop f (P ++ g :: R) = some P.length := by
  induction P with
  | nil => simp [innerLoop, hg]
  | cons b bs ih =>
    have hb : sameKey f b = false := hP b (List.mem_cons_self _ _)
    have hbs := ih (fun c hc => hP c (List.mem_cons_of_mem _ hc))
    simp [innerLoop, hb, hbs]

theorem New_suffixChain_step (m g : String) (tail : List String) (inner : GoError)
    (P : List Frame) (m' : String)
    (hT : New inner = some (P ++ (g :: tail).map (entryFrame m')))
    (hu : ∀ s ∈ g :: tail, usable s = true)
    (hP : ∀ b ∈ P, sameKey (entryFrame m g) b = false) :
    New (GoError.err m (some (g :: tail)) inner) = some (P ++ (g :: tail).map (entryFrame m)) := by
  have hO : ownFrames m (g :: tail) = (g :: tail).map (entryFrame m) :=
    ownFrames_of_usable m (g :: tail) hu
  have hidx : mergeIdx (ownFrames m (g :: tail)) (P ++ (g :: tail).map (entryFrame m'))
      = some P.length := by
    rw [hO]
    simp only [List.map_cons, mergeIdx]
    rw [innerLoop_append_cons P _ hP ((sameKey_entryFrame m m' g g).2 rfl)]
  rw [New_tracer_some m (g :: tail) inner _ hT, hidx]
  simp [hO]

theorem New_suffixChain_aux (rest : List (String × String)) :
    ∀ (m g : String) (tail : List String),
      (∀ s ∈ rest.map Prod.snd ++ g :: tail, usable s = true) →
      ((rest.reverse.map Prod.snd ++ g :: tail).map entryKey).Nodup →
      New (suffixChain ((m, g) :: rest) tail) =
        some (rest.reverse.map (fun p => entryFrame p.1 p.2)
          ++ (g :: tail).map (entryFrame m)) := by
  induction rest with
  | nil =>
    intro m g tail hu _
    simp only [suffixChain, List.reverse_nil, List.map_nil, List.nil_append]
    rw [New_tracer_none m (g :: tail) GoError.nil rfl, ownFrames_of_usable]
    intro s hs
    exact hu s (by simpa using hs)
  | cons p rest ih =>
    obtain ⟨m', g'⟩ := p
    intro m g tail hu hnd
    have hu' : ∀ s ∈ rest.map Prod.snd ++ g' :: g :: tail, usable s = true := by
      intro s hs
      apply hu s
      simp only [List.map_cons, List.mem_append, List.mem_map, List.mem_cons] at hs ⊢
      rcases hs with h | h | h | h
      · exact Or.inl (Or.inr h)
      · exact Or.inl (Or.inl h)
      · exact Or.inr (Or.inl h)
      · exact Or.inr (Or.inr h)
    have hnd' : ((rest.reverse.map Prod.snd ++ g' :: g :: tail).map entryKey).Nodup := by
      simpa [List.append_assoc] using hnd
    have hT := ih m' g' (g :: tail) hu' hnd'
    have hT' : New (suffixChain ((m', g') :: rest) (g :: tail)) =
        some (((m', g') :: rest).reverse.map (fun p => entryFrame p.1 p.2)
          ++ (g :: tail).map (entryFrame m')) := by
      rw [hT]; simp [List.append_assoc]
    have hstep := New_suffixChain_step m g tail (suffixChain ((m', g') :: rest) (g :: tail))
      (((m', g') :: rest).reverse.map (fun p => entryFrame p.1 p.2)) m' hT'
      (fun s hs => hu s (by simp only [List.mem_append]; exact Or.inr hs))
      (by
        intro b hb
        obtain ⟨q, hq, rfl⟩ := List.mem_map.1 hb
        cases hk : sameKey (entryFrame m g) (entryFrame q.1 q.2) with
        | false => rfl
        | true =>
          exfalso
          rw [sameKey_entryFrame] at hk
          rw [List.map_append, List.nodup_append] at hnd
          have h1 : entryKey q.2 ∈ List.map entryKey
              (List.map Prod.snd ((m', g') :: rest).reverse) :=
            List.mem_map.2 ⟨q.2, List.mem_map.2 ⟨q, hq, rfl⟩, rfl⟩
          have h2 : entryKey q.2 ∈ List.map entryKey (g :: tail) := by
            rw [← hk]; simp
          exact hnd.2.2 h1 h2)
    simpa [suffixChain] using hstep

/-- C3: end-to-end de-duplication on a suffix-sharing chain.  Let `e_1 ... e_n` (`n ≥ 1`,
`e_n` outermost, given as `(m, g)`, and `pre` listing `e_1 ... e_(n-1)` innermost first) be
a chain in which every error captured a stack, the stack of `e_k` being the entries
`g_k, ..., g_n` followed by the shared entries, all passing the test of `New` and with
pairwise distinct `(FuncName, Source)`.  Then `New e_n` is the frame of `g_k` tagged with
the message of `e_k`, for `k = 1 ... n` in this order, followed by the shared frames once,
tagged with the message of `e_n`.  For three errors C, B, A over one shared `main` frame
the trace has four frames, with the messages of C, B, A, A. -/
theorem New_suffix_chain :
    (∀ (pre : List (String × String)) (m g : String) (shared : List String),
      (∀ s ∈ pre.map Prod.snd ++ g :: shared, usable s = true) →
      ((pre.map Prod.snd ++ g :: shared).map entryKey).Nodup →
      New (suffixChain ((m, g) :: pre.reverse) shared) =
        some (pre.map (fun p => entryFrame p.1 p.2)
          ++ entryFrame m g :: shared.map (entryFrame m))) ∧
    (∀ (mC mB mA : String),
      New (suffixChain [(mA, "mypkg.funcA\n\tmysource.go:22"),
          (mB, "mypkg.funcB\n\tmysource.go:26"), (mC, "mypkg.funcC\n\tmysource.go:30")]
          ["main.main\n\t_testmain.go:49"]) =
        some [⟨mC, "mypkg.funcC", "mysource.go:30"⟩, ⟨mB, "mypkg.funcB", "mysource.go:26"⟩,
          ⟨mA, "mypkg.funcA", "mysource.go:22"⟩, ⟨mA, "main.main", "_testmain.go:49"⟩]) := by
  have general : ∀ (pre : List (String × String)) (m g : String) (shared : List String),
      (∀ s ∈ pre.map Prod.snd ++ g :: shared, usable s = true) →
      ((pre.map Prod.snd ++ g :: shared).map entryKey).Nodup →
      New (suffixChain ((m, g) :: pre.reverse) shared) =
        some (pre.map (fun p => entryFrame p.1 p.2)
          ++ entryFrame m g :: shared.map (entryFrame m)) := by
    intro pre m g shared hu hnd
    have h := New_suffixChain_aux pre.reverse m g shared
      (by
        intro s hs
        apply hu s
        simpa [List.map_reverse] using hs)
      (by simpa using hnd)
    simpa using h
  refine ⟨general, ?_⟩
  intro mC mB mA
  have h := general [(mC, "mypkg.funcC\n\tmysource.go:30"),
    (mB, "mypkg.funcB\n\tmysource.go:26")] mA "mypkg.funcA\n\tmysource.go:22"
    ["main.main\n\t_testmain.go:49"]
    (by simp only [List.map_cons, List.map_nil, List.cons_append, List.nil_append]; decide)
    (by simp only [List.map_cons, List.map_nil, List.cons_append, List.nil_append]; decide)
  have e1 : entryFrame mC "mypkg.funcC\n\tmysource.go:30"
      = ⟨mC, "mypkg.funcC", "mysource.go:30"⟩ := by
    simp only [entryFrame, Frame.mk.injEq, true_and]; decide
  have e2 : entryFrame mB "mypkg.funcB\n\tmysource.go:26"
      = ⟨mB, "mypkg.funcB", "mysource.go:26"⟩ := by
    simp only [entryFrame, Frame.mk.injEq, true_and]; decide
  have e3 : entryFrame mA "mypkg.funcA\n\tmysource.go:22"
      = ⟨mA, "mypkg.funcA", "mysource.go:22"⟩ := by
    simp only [entryFrame, Frame.mk.injEq, true_and]; decide
  have e4 : entryFrame mA "main.main\n\t_testmain.go:49"
      = ⟨mA, "main.main", "_testmain.go:49"⟩ := by
    simp only [entryFrame, Frame.mk.injEq, true_and]; decide
  simpa [e1, e2, e3, e4] using h

/-- Instance of C3: the chain of the package example, with the messages that
`errors.Wrap` produces. -/
theorem New_suffix_chain_witness :
    New (suffixChain [("error A: error B: error C", "mypkg.funcA\n\tmysource.go:22"),
        ("error B: error C", "mypkg.funcB\n\tmysource.go:26"),
        ("error C", "mypkg.funcC\n\tmysource.go:30")]
        ["mypkg.Example\n\tmysource.go:12", "main.main\n\t_testmain.go:49"]) =
      some ([("error C", "mypkg.funcC\n\tmysource.go:30"),
          ("error B: error C", "mypkg.funcB\n\tmysource.go:26")].map
            (fun p => entryFrame p.1 p.2)
        ++ entryFrame "error A: error B: error C" "mypkg.funcA\n\tmysource.go:22"
          :: ["mypkg.Example\n\tmysource.go:12", "main.main\n\t_testmain.go:49"].map
            (entryFrame "error A: error B: error C")) :=
  New_suffix_chain.1 [("error C", "mypkg.funcC\n\tmysource.go:30"),
      ("error B: error C", "mypkg.funcB\n\tmysource.go:26")]
    "error A: error B: error C" "mypkg.funcA\n\tmysource.go:22"
    ["mypkg.Example\n\tmysource.go:12", "main.main\n\t_testmain.go:49"]
    (by decide) (by decide)

/-! ### Keys after the merge -/

theorem sameKey_comm (a b : Frame) : sameKey a b = sameKey b a := by
  cases h : sameKey b a with
  | true => rw [sameKey_iff] at h ⊢; exact ⟨h.1.symm, h.2.symm⟩
  | false =>
    rw [sameKey_eq_false_iff] at h ⊢
    exact fun h' => h ⟨h'.1.symm, h'.2.symm⟩

/-- C8, as stated, fails: own frames `a, b` over an inner trace `b, a`, each with pairwise
distinct keys, merge at the pair `(0, 1)`; the retained inner frame `b` has the key of the
second own frame. -/
theorem New_merge_duplicate_key :
    (ownFrames "A" ["a\n\ta.go:1", "b\n\tb.go:2"]).Pairwise
        (fun x y => sameKey x y = false) ∧
    (New (GoError.err "B" (some ["b\n\tb.go:2", "a\n\ta.go:1"]) GoError.nil)).frames.Pairwise
        (fun x y => sameKey x y = false) ∧
    New (GoError.err "A" (some ["a\n\ta.go:1", "b\n\tb.go:2"])
        (GoError.err "B" (some ["b\n\tb.go:2", "a\n\ta.go:1"]) GoError.nil))
      = some [⟨"B", "b", "b.go:2"⟩, ⟨"A", "a", "a.go:1"⟩, ⟨"A", "b", "b.go:2"⟩] ∧
    ¬ (New (GoError.err "A" (some ["a\n\ta.go:1", "b\n\tb.go:2"])
        (GoError.err "B" (some ["b\n\tb.go:2", "a\n\ta.go:1"]) GoError.nil))).frames.Pairwise
        (fun x y => sameKey x y = false) := by
  decide

/-- C8, amended: for an error that exposes captured frames, if the own frames have
pairwise distinct `(FuncName, Source)` keys, the inner trace has pairwise distinct keys,
and the frames common to both come in the same order in both (whenever own frames at
`i < i'` have the keys of inner frames at `j` and `j'`, then `j ≤ j'`), then `New` has
pairwise distinct keys: no frame of the retained inner prefix has the key of an own
frame. -/
theorem New_distinct_keys (msg : String) (stack : List String) (inner : GoError)
    (hO : (ownFrames msg stack).Pairwise (fun x y => sameKey x y = false))
    (hT : (New inner).frames.Pairwise (fun x y => sameKey x y = false))
    (hord : ∀ (i i' j j' : Nat) (a a' b b' : Frame),
      (ownFrames msg stack)[i]? = some a → (ownFrames msg stack)[i']? = some a' →
      (New inner).frames[j]? = some b → (New inner).frames[j']? = some b' →
      sameKey a b = true → sameKey a' b' = true → i < i' → j ≤ j') :
    (New (GoError.err msg (some stack) inner)).frames.Pairwise
      (fun x y => sameKey x y = false) := by
  cases hN : New inner with
  | none =>
    rw [New_tracer_none msg stack inner hN]
    exact hO
  | some T =>
    rw [hN] at hT hord
    have hT' : T.Pairwise (fun x y => sameKey x y = false) := hT
    have hord' : ∀ (i i' j j' : Nat) (a a' b b' : Frame),
        (ownFrames msg stack)[i]? = some a → (ownFrames msg stack)[i']? = some a' →
        T[j]? = some b → T[j']? = some b' →
        sameKey a b = true → sameKey a' b' = true → i < i' → j ≤ j' := hord
    rw [New_tracer_some msg stack inner T hN]
    cases hidx : mergeIdx (ownFrames msg stack) T with
    | none =>
      show (T ++ ownFrames msg stack).Pairwise _
      rw [List.pairwise_append]
      refine ⟨hT', hO, ?_⟩
      intro b hb a ha
      rw [sameKey_comm]
      exact mergeIdx_none_spec hidx a ha b hb
    | some j =>
      show (T.take j ++ ownFrames msg stack).Pairwise _
      rw [List.pairwise_append]
      refine ⟨hT'.sublist (List.take_sublist _ _), hO, ?_⟩
      intro b' hb' a' ha'
      obtain ⟨i, a, ha, hj, hmin⟩ := mergeIdx_some_spec hidx
      obtain ⟨⟨b, hb, hab⟩, hjmin⟩ := innerLoop_some_spec hj
      obtain ⟨j', hj'⟩ := List.mem_iff_getElem?.1 hb'
      obtain ⟨i', hi'⟩ := List.mem_iff_getElem?.1 ha'
      have hj'lt : j' < j := by
        have h1 := (List.getElem?_eq_some.1 hj').1
        rw [List.length_take] at h1
        omega
      rw [List.getElem?_take_of_lt hj'lt] at hj'
      cases hk : sameKey b' a' with
      | false => rfl
      | true =>
        exfalso
        rw [sameKey_comm] at hk
        rcases Nat.lt_trichotomy i' i with h | h | h
        · have hnone := innerLoop_none_spec (hmin i' a' h hi') b'
            (List.mem_iff_getElem?.2 ⟨j', hj'⟩)
          rw [hk] at hnone
          exact Bool.noConfusion hnone
        · subst h
          rw [ha] at hi'
          simp only [Option.some.injEq] at hi'
          subst hi'
          have hf := hjmin j' b' hj'lt hj'
          rw [hk] at hf
          exact Bool.noConfusion hf
        · have hle := hord' i i' j j' a a' b b' ha hi' hb hj' hab hk h
          omega

/-- Instance of the amended C8: own frames `b, c` over an inner trace `a, b, c`. -/
theorem New_distinct_keys_witness :
    (New (GoError.err "A" (some ["b\n\tb.go:2", "c\n\tc.go:3"])
        (GoError.err "B" (some ["a\n\ta.go:1", "b\n\tb.go:2", "c\n\tc.go:3"])
          GoError.nil))).frames.Pairwise (fun x y => sameKey x y = false) :=
  New_distinct_keys "A" ["b\n\tb.go:2", "c\n\tc.go:3"]
    (GoError.err "B" (some ["a\n\ta.go:1", "b\n\tb.go:2", "c\n\tc.go:3"]) GoError.nil)
    (by decide) (by decide)
    (by
      have hO : ownFrames "A" ["b\n\tb.go:2", "c\n\tc.go:3"]
          = [⟨"A", "b", "b.go:2"⟩, ⟨"A", "c", "c.go:3"⟩] := by decide
      have hT : (New (GoError.err "B" (some ["a\n\ta.go:1", "b\n\tb.go:2", "c\n\tc.go:3"])
          GoError.nil)).frames
          = [⟨"B", "a", "a.go:1"⟩, ⟨"B", "b", "b.go:2"⟩, ⟨"B", "c", "c.go:3"⟩] := by decide
      rw [hO, hT]
      intro i i' j j' a a' b b' h1 h2 h3 h4 h5 h6 hlt
      rcases i with _ | _ | i
      · rcases j with _ | _ | j
        · simp only [List.getElem?_cons_zero, Option.some.injEq] at h1 h3
          subst h1 h3
          exact absurd h5 (by decide)
        · rcases i' with _ | _ | i'
          · omega
          · rcases j' with _ | j'
            · simp only [List.getElem?_cons_zero, List.getElem?_cons_succ,
                Option.some.injEq] at h2 h4
              subst h2 h4
              exact absurd h6 (by decide)
            · omega
          · simp at h2
        · rcases j with _ | j
          · simp only [List.getElem?_cons_zero, List.getElem?_cons_succ,
              Option.some.injEq] at h1 h3
            subst h1 h3
            exact absurd h5 (by decide)
          · simp at h3
      · rcases i' with _ | _ | i'
        · omega
        · omega
        · simp at h2
      · simp at h1)

/-! ### Rendering -/

theorem stringsLoop_eq_labelled (funcName : Bool) (st : List Frame) (prevMsg prevFunc : String) :
    stringsLoop funcName st prevMsg prevFunc
      = (labelledLoop funcName st prevMsg prevFunc).map Prod.snd := by
  induction st generalizing prevMsg prevFunc with
  | nil => rfl
  | cons f rest ih =>
    simp only [stringsLoop, labelledLoop, List.map_append, ih]
    congr 1
    congr 1
    congr 1
    · split <;> rfl
    · split <;> rfl
    · split <;> rfl

theorem strings_eq_labelled (funcName : Bool) (st : StackTrace) :
    strings funcName st = (labelledStrings funcName st).map Prod.snd := by
  unfold strings labelledStrings
  split
  · rfl
  · exact stringsLoop_eq_labelled funcName _ _ _

theorem HasSuffix_wrap (p m : String) : HasSuffix (p ++ ": " ++ m) (": " ++ m) = true := by
  simp only [HasSuffix, List.isSuffixOf_iff_suffix, String.data_append]
  exact ⟨p.data, by simp⟩

theorem displayMsg_wrap (p m : String) : displayMsg (p ++ ": " ++ m) m = p := by
  unfold displayMsg
  rw [if_pos (HasSuffix_wrap p m)]
  apply String.ext
  have h2 : (": " : String).length = 2 := by decide
  have hlen : (p ++ ": " ++ m).length - m.length - 2 = p.data.length := by
    simp only [String.length_append, h2]
    show p.length + 2 + m.length - m.length - 2 = p.length
    omega
  simp only [sliceTo, hlen, String.data_append, List.append_assoc]
  exact List.take_left _ _

theorem displayMsg_first (m : String) (h : HasSuffix m ": " = false) : displayMsg m "" = m := by
  unfold displayMsg
  rw [String.append_empty, h]
  simp

theorem wrapChain_ne_nil (m : String) (ps : List String) : wrapChain m ps ≠ [] := by
  cases ps <;> simp [wrapChain]

theorem wrapChain_head (m : String) (ps : List String) :
    ∃ t, wrapChain m ps = m :: t := by
  cases ps with
  | nil => exact ⟨[], rfl⟩
  | cons p ps => exact ⟨_, rfl⟩

theorem destutter'_head (a : String) (l : List String) :
    ∃ t, List.destutter' (· ≠ ·) a l = a :: t := by
  induction l generalizing a with
  | nil => exact ⟨[], rfl⟩
  | cons b l ih =>
    by_cases h : a ≠ b
    · exact ⟨_, List.destutter'_cons_pos l h⟩
    · rw [List.destutter'_cons_neg l h]
      exact ih a

/-- The message lines of the loop of `strings` along a chain of wraps that starts at the
message of the previous frame. -/
theorem labelledLoop_wrap (funcName : Bool) (l : List Frame) :
    ∀ (a prevFunc : String) (ps : List String),
      List.destutter' (· ≠ ·) a (l.map Frame.Message) = wrapChain a ps →
      ((labelledLoop funcName l a prevFunc).filter (fun x => x.1 = LineKind.message)).map
        Prod.snd = ps := by
  induction l with
  | nil =>
    intro a prevFunc ps h
    cases ps with
    | nil => rfl
    | cons p ps =>
      obtain ⟨t, ht⟩ := wrapChain_head (p ++ ": " ++ a) ps
      simp [wrapChain, ht] at h
  | cons f rest ih =>
    intro a prevFunc ps h
    rw [List.map_cons] at h
    have hfun : ∀ (c : Prop) [Decidable c] (x : String),
        List.filter (fun y : LineKind × String => decide (y.1 = LineKind.message))
          (if c then [(LineKind.function, x)] else []) = [] := by
      intro c _ x; split <;> rfl
    have hsrc : ∀ (c : Prop) [Decidable c] (x : String),
        List.filter (fun y : LineKind × String => decide (y.1 = LineKind.message))
          (if c then [(LineKind.source, x)] else []) = [] := by
      intro c _ x; split <;> rfl
    by_cases hne : a ≠ f.Message
    · rw [List.destutter'_cons_pos _ hne] at h
      cases ps with
      | nil => 
        obtain ⟨t, ht⟩ := destutter'_head f.Message (rest.map Frame.Message)
        simp [wrapChain, ht] at h
      | cons p ps =>
        simp only [wrapChain, List.cons.injEq, true_and] at h
        obtain ⟨t, ht⟩ := destutter'_head f.Message (rest.map Frame.Message)
        obtain ⟨t', ht'⟩ := wrapChain_head (p ++ ": " ++ a) ps
        have hmsg : f.Message = p ++ ": " ++ a := by
          rw [ht, ht'] at h
          exact (List.cons.inj h).1
        have hrest := ih f.Message f.FuncName ps (by rw [h, hmsg])
        have hne' : f.Message ≠ a := fun e => hne e.symm
        simp only [labelledLoop, List.filter_append, List.map_append, hfun, hsrc, hrest,
          if_pos hne', List.append_nil]
        rw [hmsg, displayMsg_wrap]
        rfl
    · rw [List.destutter'_cons_neg _ hne] at h
      have heq : f.Message = a := by
        by_contra e; exact hne (fun e' => e e'.symm)
      have hrest := ih f.Message f.FuncName ps (by rw [heq]; exact h)
      have hne' : ¬ f.Message ≠ a := fun e => e heq
      simp only [labelledLoop, List.filter_append, List.map_append, hfun, hsrc, hrest,
        if_neg hne', List.append_nil]
      rfl

/-- C9, as stated, fails: the first frame is compared with an empty previous message, so
a first message ending in `": "` loses that ending, and an empty first message gives no
message line at all. -/
theorem strings_first_message_trimmed :
    (([⟨"x: ", "f", "a.go:1"⟩] : List Frame).map Frame.Message).destutter (· ≠ ·)
        = wrapChain "x: " [] ∧
    messageLines false (some [⟨"x: ", "f", "a.go:1"⟩]) = ["x"] ∧
    messageLines true (some [⟨"x: ", "f", "a.go:1"⟩]) = ["x"] ∧
    messageLines false (some [⟨"x: ", "f", "a.go:1"⟩]) ≠ "x: " :: [] ∧
    (([⟨"", "f", "a.go:1"⟩, ⟨"x: ", "g", "b.go:2"⟩] : List Frame).map Frame.Message).destutter
        (· ≠ ·) = wrapChain "" ["x"] ∧
    messageLines false (some [⟨"", "f", "a.go:1"⟩, ⟨"x: ", "g", "b.go:2"⟩]) = ["x"] ∧
    messageLines false (some [⟨"", "f", "a.go:1"⟩, ⟨"x: ", "g", "b.go:2"⟩]) ≠ "" :: ["x"] := by
  decide

/-- C9, amended: for every trace whose consecutive distinct messages are `m₁`,
`p₂ ++ ": " ++ m₁`, `p₃ ++ ": " ++ (p₂ ++ ": " ++ m₁)`, ..., where `m₁` is not empty and
does not end in `": "`, the message lines that `strings` emits, in either mode, are exactly
`m₁, p₂, p₃, ...` in this order (each frame is compared with the whole message of the frame
before it); the lines of `strings` are the labelled lines without their labels.  For two
adjacent frames with messages `"error B"` and `"error A: error B"` the message lines are
`"error B"` and `"error A"`. -/
theorem strings_wrap_chain :
    (∀ (funcName : Bool) (st : List Frame) (m₁ : String) (ps : List String),
      m₁ ≠ "" → HasSuffix m₁ ": " = false →
      (st.map Frame.Message).destutter (· ≠ ·) = wrapChain m₁ ps →
      messageLines funcName (some st) = m₁ :: ps ∧
      strings funcName (some st) = (labelledStrings funcName (some st)).map Prod.snd) ∧
    (∀ (funcName : Bool) (f₁ s₁ f₂ s₂ : String),
      messageLines funcName (some [⟨"error B", f₁, s₁⟩, ⟨"error A: error B", f₂, s₂⟩])
        = ["error B", "error A"]) := by
  have general : ∀ (funcName : Bool) (st : List Frame) (m₁ : String) (ps : List String),
      m₁ ≠ "" → HasSuffix m₁ ": " = false →
      (st.map Frame.Message).destutter (· ≠ ·) = wrapChain m₁ ps →
      messageLines funcName (some st) = m₁ :: ps := by
    intro funcName st m₁ ps hne hs h
    cases st with
    | nil => exact absurd h.symm (wrapChain_ne_nil m₁ ps)
    | cons f rest =>
      rw [List.map_cons, List.destutter_cons'] at h
      obtain ⟨t, ht⟩ := destutter'_head f.Message (rest.map Frame.Message)
      obtain ⟨t', ht'⟩ := wrapChain_head m₁ ps
      have hmsg : f.Message = m₁ := by
        rw [ht, ht'] at h
        exact (List.cons.inj h).1
      have hrest := labelledLoop_wrap funcName rest f.Message f.FuncName ps (by rw [h, hmsg])
      have hne' : f.Message ≠ "" := by rw [hmsg]; exact hne
      have hfun : ∀ (c : Prop) [Decidable c] (x : String),
          List.filter (fun y : LineKind × String => decide (y.1 = LineKind.message))
            (if c then [(LineKind.function, x)] else []) = [] := by
        intro c _ x; split <;> rfl
      have hsrc : ∀ (c : Prop) [Decidable c] (x : String),
          List.filter (fun y : LineKind × String => decide (y.1 = LineKind.message))
            (if c then [(LineKind.source, x)] else []) = [] := by
        intro c _ x; split <;> rfl
      have hlen : ¬ (StackTrace.frames (some (f :: rest))).length = 0 := by
        simp [StackTrace.frames]
      simp only [messageLines, labelledStrings, if_neg hlen]
      simp only [StackTrace.frames, labelledLoop, List.filter_append, List.map_append, hfun,
        hsrc, hrest, if_pos hne', List.append_nil]
      rw [hmsg, displayMsg_first m₁ hs]
      rfl
  refine ⟨fun funcName st m₁ ps hne hs h =>
    ⟨general funcName st m₁ ps hne hs h, strings_eq_labelled funcName (some st)⟩, ?_⟩
  intro funcName f₁ s₁ f₂ s₂
  exact general funcName _ "error B" ["error A"] (by decide) (by decide)
    (by simp only [List.map_cons, List.map_nil]; decide)

/-- Instance of the amended C9: the three messages of the package example, the last one
on two frames. -/
theorem strings_wrap_chain_witness :
    messageLines true (some [⟨"error C", "mypkg.funcC", "mysource.go:30"⟩,
        ⟨"error B: error C", "mypkg.funcB", "mysource.go:26"⟩,
        ⟨"error A: error B: error C", "mypkg.funcA", "mysource.go:22"⟩,
        ⟨"error A: error B: error C", "main.main", "_testmain.go:49"⟩])
      = ["error C", "error B", "error A"] :=
  (strings_wrap_chain.1 true [⟨"error C", "mypkg.funcC", "mysource.go:30"⟩,
        ⟨"error B: error C", "mypkg.funcB", "mysource.go:26"⟩,
        ⟨"error A: error B: error C", "mypkg.funcA", "mysource.go:22"⟩,
        ⟨"error A: error B: error C", "main.main", "_testmain.go:49"⟩]
      "error C" ["error B", "error A"] (by decide) (by decide) (by decide)).1

theorem stringsLoop_same (rest : List Frame) (m f : String)
    (hall : ∀ fr ∈ rest, fr.Message = m ∧ fr.FuncName = f) :
    stringsLoop true rest m f
      = (rest.filter (fun fr => fr.Source ≠ "")).map (fun fr => "\t" ++ fr.Source) := by
  induction rest with
  | nil => rfl
  | cons fr rest ih =>
    obtain ⟨hm, hf⟩ := hall fr (List.mem_cons_self _ _)
    have hrest := ih (fun x hx => hall x (List.mem_cons_of_mem _ hx))
    simp only [stringsLoop, hm, hf, hrest, ne_eq, not_true_eq_false, if_false, or_self,
      and_false, List.nil_append, List.filter_cons]
    by_cases hs : fr.Source = ""
    · simp [hs]
    · simp [hs]

/-- C10: render dedup.  For a non-empty trace whose frames all have the same message `m`,
not empty and not ending in `": "`, and the same function name `f`, the verbose lines are
`m`, `f`, and then `"\t" ++ Source` for each frame with a non-empty `Source`, in frame
order: the message line and the function line appear once, a source line for every frame
that has one. -/
theorem strings_same_message_func (st : List Frame) (m f : String) (hst : st ≠ [])
    (hall : ∀ fr ∈ st, fr.Message = m ∧ fr.FuncName = f)
    (hm : m ≠ "") (hs : HasSuffix m ": " = false) :
    strings true (some st)
      = [m, f] ++ (st.filter (fun fr => fr.Source ≠ "")).map (fun fr => "\t" ++ fr.Source) := by
  cases st with
  | nil => exact absurd rfl hst
  | cons fr rest =>
    obtain ⟨hmsg, hf⟩ := hall fr (List.mem_cons_self _ _)
    have hrest := stringsLoop_same rest m f (fun x hx => hall x (List.mem_cons_of_mem _ hx))
    have hlen : ¬ (StackTrace.frames (some (fr :: rest))).length = 0 := by
      simp [StackTrace.frames]
    simp only [strings, if_neg hlen]
    simp only [StackTrace.frames, stringsLoop, hmsg, hf, hrest, ne_eq, hm, not_false_eq_true,
      if_true, true_or, and_self, displayMsg_first m hs, List.filter_cons]
    by_cases hsrc : fr.Source = ""
    · simp [hsrc]
    · simp [hsrc]

/-- Instance of C10: three frames of one function, the second without a source. -/
theorem strings_same_message_func_witness :
    strings true (some [⟨"error A", "mypkg.funcA", "mysource.go:22"⟩,
        ⟨"error A", "mypkg.funcA", ""⟩, ⟨"error A", "mypkg.funcA", "mysource.go:23"⟩])
      = ["error A", "mypkg.funcA"] ++
        (([⟨"error A", "mypkg.funcA", "mysource.go:22"⟩,
          ⟨"error A", "mypkg.funcA", ""⟩,
          ⟨"error A", "mypkg.funcA", "mysource.go:23"⟩] : List Frame).filter
            (fun fr => fr.Source ≠ "")).map (fun fr => "\t" ++ fr.Source) :=
  strings_same_message_func _ "error A" "mypkg.funcA" (by decide) (by decide) (by decide)
    (by decide)

/-! ### String and Format -/

/-- C11, as stated, fails: `String` renders in verbose mode.  For a one-frame trace it
gives the function-name line that the plain lines, and `Format` with verb `v` and no `+`
flag, leave out. -/
theorem String_is_verbose :
    StackTrace.String (some [⟨"error C", "mypkg.funcC", "mysource.go:30"⟩])
      = "error C\nmypkg.funcC\n\tmysource.go:30" ∧
    Join (strings false (some [⟨"error C", "mypkg.funcC", "mysource.go:30"⟩])) "\n"
      = "error C\n\tmysource.go:30" ∧
    (StackTrace.Format (some [⟨"error C", "mypkg.funcC", "mysource.go:30"⟩])
      ⟨fun _ => false, ""⟩ 'v').written = "error C\n\tmysource.go:30" ∧
    StackTrace.String (some [⟨"error C", "mypkg.funcC", "mysource.go:30"⟩])
      ≠ Join (strings false (some [⟨"error C", "mypkg.funcC", "mysource.go:30"⟩])) "\n" ∧
    (StackTrace.Format (some [⟨"error C", "mypkg.funcC", "mysource.go:30"⟩])
      ⟨fun _ => false, ""⟩ 's').written = "error C\nmypkg.funcC\n\tmysource.go:30" := by
  decide

/-- C11, amended: for every trace, `String` is the newline-join of the verbose lines
`strings(true)`; `Format` writes exactly that text for verb `s` whatever the flags and for
verb `v` with the `+` flag, and for verb `v` without the `+` flag it writes the
newline-join of the plain lines `strings(false)`. -/
theorem String_Format_modes (st : StackTrace) (s : State) :
    StackTrace.String st = Join (strings true st) "\n" ∧
    StackTrace.Format st s 's' = WriteString s (StackTrace.String st) ∧
    (s.Flag '+' = true → StackTrace.Format st s 'v' = WriteString s (StackTrace.String st)) ∧
    (s.Flag '+' = false →
      StackTrace.Format st s 'v' = WriteString s (Join (strings false st) "\n")) := by
  refine ⟨rfl, ?_, ?_, ?_⟩
  · have h : ¬ ('s' = 'v') := by decide
    simp only [StackTrace.Format, if_neg h, if_true]
  · intro hf
    simp only [StackTrace.Format, if_true, hf, StackTrace.String]
  · intro hf
    simp only [StackTrace.Format, if_true, hf]

/-- Instance of the amended C11: verb `v` with and without the `+` flag. -/
theorem String_Format_modes_witness :
    StackTrace.Format (some [⟨"error C", "mypkg.funcC", "mysource.go:30"⟩])
        ⟨fun c => c == '+', ""⟩ 'v'
      = WriteString ⟨fun c => c == '+', ""⟩
          (StackTrace.String (some [⟨"error C", "mypkg.funcC", "mysource.go:30"⟩])) ∧
    StackTrace.Format (some [⟨"error C", "mypkg.funcC", "mysource.go:30"⟩])
        ⟨fun _ => false, ""⟩ 'v'
      = WriteString ⟨fun _ => false, ""⟩
          (Join (strings false (some [⟨"error C", "mypkg.funcC", "mysource.go:30"⟩])) "\n") :=
  ⟨(String_Format_modes _ ⟨fun c => c == '+', ""⟩).2.2.1 (by decide),
   (String_Format_modes _ ⟨fun _ => false, ""⟩).2.2.2 rfl⟩

/-- C13: unsupported format verbs are no-ops.  For every trace, every state (so every
flag setting) and every verb other than `v` and `s`, `Format` returns the state as it
was: nothing is written, and the call is total. -/
theorem Format_other_verb (st : StackTrace) (s : State) (verb : Char)
    (hv : verb ≠ 'v') (hs : verb ≠ 's') :
    StackTrace.Format st s verb = s ∧ (StackTrace.Format st s verb).written = s.written := by
  have h : StackTrace.Format st s verb = s := by
    simp only [StackTrace.Format, if_neg hv, if_neg hs]
  exact ⟨h, by rw [h]⟩

/-- Instance of C13: verb `d` with the `+` flag set. -/
theorem Format_other_verb_witness :
    (StackTrace.Format (some [⟨"error C", "mypkg.funcC", "mysource.go:30"⟩])
      ⟨fun c => c == '+', "so far"⟩ 'd').written = "so far" :=
  (Format_other_verb (some [⟨"error C", "mypkg.funcC", "mysource.go:30"⟩])
    ⟨fun c => c == '+', "so far"⟩ 'd' (by decide) (by decide)).2

/-! ### The two render modes -/

theorem strings_eq_loop (funcName : Bool) (st : StackTrace) :
    strings funcName st = stringsLoop funcName st.frames "" "" := by
  unfold strings
  split
  · rename_i h
    rw [List.length_eq_zero.1 h]
    rfl
  · rfl

theorem labelledStrings_eq_loop (funcName : Bool) (st : StackTrace) :
    labelledStrings funcName st = labelledLoop funcName st.frames "" "" := by
  unfold labelledStrings
  split
  · rename_i h
    rw [List.length_eq_zero.1 h]
    rfl
  · rfl

theorem labelledLoop_plain (l : List Frame) (prevMsg prevFunc : String) :
    labelledLoop false l prevMsg prevFunc
      = (labelledLoop true l prevMsg prevFunc).filter (fun x => x.1 ≠ LineKind.function) := by
  induction l generalizing prevMsg prevFunc with
  | nil => rfl
  | cons f rest ih =>
    simp only [labelledLoop, List.filter_append, ih]
    congr 1
    congr 1
    congr 1
    · split <;> rfl
    · simp only [Bool.false_eq_true, false_and, if_false, true_and]
      split <;> rfl
    · split <;> rfl

theorem labelledLoop_function (l : List Frame) (p : Frame) :
    ((labelledLoop true l p.Message p.FuncName).filter
        (fun x => x.1 = LineKind.function)).map Prod.snd
      = (((p :: l).zip l).filter
          (fun q => q.2.Message ≠ q.1.Message ∨ q.2.FuncName ≠ q.1.FuncName)).map
            (fun q => q.2.FuncName) := by
  induction l generalizing p with
  | nil => rfl
  | cons f rest ih =>
    have hrest := ih f
    simp only [labelledLoop, List.filter_append, List.map_append, hrest, List.zip_cons_cons,
      List.filter_cons, true_and]
    have hmsg : ∀ (c : Prop) [Decidable c] (x : String),
        List.filter (fun y : LineKind × String => decide (y.1 = LineKind.function))
          (if c then [(LineKind.message, x)] else []) = [] := by
      intro c _ x; split <;> rfl
    have hsrc : ∀ (c : Prop) [Decidable c] (x : String),
        List.filter (fun y : LineKind × String => decide (y.1 = LineKind.function))
          (if c then [(LineKind.source, x)] else []) = [] := by
      intro c _ x; split <;> rfl
    rw [hmsg, hsrc]
    by_cases hc : f.Message ≠ p.Message ∨ f.FuncName ≠ p.FuncName
    · simp [hc]
    · simp [hc]

/-- C12: the two render modes differ only in function-name lines.  For every trace the
plain lines are the verbose lines with exactly the function-name lines deleted, so they
are an order-preserving sublist of the verbose lines, and the message lines and the source
lines are the same in both modes.  Plain mode has no function-name line; verbose mode has
one for each frame whose message or function name differs from that of the frame before
it, the first frame being compared with the empty strings the loop starts from. -/
theorem strings_modes (st : StackTrace) :
    labelledStrings false st
      = (labelledStrings true st).filter (fun l => l.1 ≠ LineKind.function) ∧
    strings true st = (labelledStrings true st).map Prod.snd ∧
    strings false st
      = ((labelledStrings true st).filter (fun l => l.1 ≠ LineKind.function)).map Prod.snd ∧
    (strings false st).Sublist (strings true st) ∧
    messageLines false st = messageLines true st ∧
    sourceLines false st = sourceLines true st ∧
    functionLines false st = [] ∧
    functionLines true st
      = (((⟨"", "", ""⟩ :: st.frames).zip st.frames).filter
          (fun q => q.2.Message ≠ q.1.Message ∨ q.2.FuncName ≠ q.1.FuncName)).map
            (fun q => q.2.FuncName) := by
  have hplain : labelledStrings false st
      = (labelledStrings true st).filter (fun l => l.1 ≠ LineKind.function) := by
    rw [labelledStrings_eq_loop, labelledStrings_eq_loop, labelledLoop_plain]
  have hfalse : strings false st
      = ((labelledStrings true st).filter (fun l => l.1 ≠ LineKind.function)).map Prod.snd := by
    rw [strings_eq_labelled, hplain]
  refine ⟨hplain, strings_eq_labelled true st, hfalse, ?_, ?_, ?_, ?_, ?_⟩
  · rw [hfalse, strings_eq_labelled true st]
    exact (List.filter_sublist _).map _
  · simp only [messageLines, hplain, List.filter_filter]
    congr 2
    funext x
    cases x.1 <;> rfl
  · simp only [sourceLines, hplain, List.filter_filter]
    congr 2
    funext x
    cases x.1 <;> rfl
  · simp only [functionLines, hplain, List.filter_filter]
    have : (fun a : LineKind × String =>
        decide (a.1 = LineKind.function) && decide (a.1 ≠ LineKind.function))
        = fun _ => false := by
      funext x
      cases x.1 <;> rfl
    rw [this]
    simp
  · simp only [functionLines, labelledStrings_eq_loop]
    exact labelledLoop_function st.frames ⟨"", "", ""⟩

/-! ### Further properties of the merge -/

/-- C14: the first-match tie-break can truncate short.  There are own frames `O` and a
non-empty inner trace `T` with two matching pairs `(i, j)` and `(i', j')`, `i < i'` and
`j < j'`, for which `New` cuts at `j`, keeping fewer inner frames than a cut at `j'` would:
own frames `a, b` over the inner trace `x, a, y, b` give `x, a, b`, not `x, a, y, a, b`. -/
theorem New_first_match_truncates_short :
    ∃ (msg : String) (stack : List String) (inner : GoError) (T : List Frame)
      (i j i' j' : Nat) (a b a' b' : Frame),
      New inner = some T ∧ T ≠ [] ∧
      (ownFrames msg stack)[i]? = some a ∧ T[j]? = some b ∧ sameKey a b = true ∧
      (ownFrames msg stack)[i']? = some a' ∧ T[j']? = some b' ∧ sameKey a' b' = true ∧
      i < i' ∧ j < j' ∧
      New (GoError.err msg (some stack) inner) = some (T.take j ++ ownFrames msg stack) ∧
      New (GoError.err msg (some stack) inner)
        = some [⟨"B", "x", "x.go:9"⟩, ⟨"A", "a", "a.go:1"⟩, ⟨"A", "b", "b.go:2"⟩] ∧
      T.take j' ++ ownFrames msg stack
        = [⟨"B", "x", "x.go:9"⟩, ⟨"B", "a", "a.go:1"⟩, ⟨"B", "y", "y.go:8"⟩,
            ⟨"A", "a", "a.go:1"⟩, ⟨"A", "b", "b.go:2"⟩] :=
  ⟨"A", ["a\n\ta.go:1", "b\n\tb.go:2"],
    GoError.err "B" (some ["x\n\tx.go:9", "a\n\ta.go:1", "y\n\ty.go:8", "b\n\tb.go:2"])
      GoError.nil,
    [⟨"B", "x", "x.go:9"⟩, ⟨"B", "a", "a.go:1"⟩, ⟨"B", "y", "y.go:8"⟩, ⟨"B", "b", "b.go:2"⟩],
    0, 1, 1, 3, ⟨"A", "a", "a.go:1"⟩, ⟨"B", "a", "a.go:1"⟩, ⟨"A", "b", "b.go:2"⟩,
    ⟨"B", "b", "b.go:2"⟩, by decide⟩

theorem ownFrames_eq_nil_of_unusable (msg : String) (stack : List String)
    (h : ∀ s ∈ stack, usable s = false) : ownFrames msg stack = [] := by
  induction stack with
  | nil => rfl
  | cons s rest ih =>
    have hs : ¬ (Split s "\n\t").length > 1 := by
      simpa [usable] using h s (List.mem_cons_self _ _)
    rw [ownFrames_cons, ih (fun t ht => h t (List.mem_cons_of_mem _ ht))]
    simp [appendFrame, hs]

/-- C18: an error with a capture but no usable frames is transparent.  For a non-nil
error that implements `stackTracer` and whose captured entries all fail the test of `New`
(in particular when there are none), `New` has exactly the frames of `New` of the error it
unwraps to. -/
theorem New_no_usable (msg : String) (stack : List String) (inner : GoError)
    (h : ∀ s ∈ stack, usable s = false) :
    ownFrames msg stack = [] ∧
    (New (GoError.err msg (some stack) inner)).frames = (New inner).frames := by
  have hO := ownFrames_eq_nil_of_unusable msg stack h
  refine ⟨hO, ?_⟩
  cases hT : New inner with
  | none =>
    rw [New_tracer_none msg stack inner hT, hO]
    rfl
  | some T =>
    rw [New_tracer_some msg stack inner T hT, hO]
    simp [mergeIdx, StackTrace.frames]

/-- Instance of C18: an error whose only captured entry is `unknown`, over an error with
two frames. -/
theorem New_no_usable_witness :
    (New (GoError.err "A" (some ["unknown"])
        (GoError.err "B" (some ["x\n\tx.go:9", "a\n\ta.go:1"]) GoError.nil))).frames
      = (New (GoError.err "B" (some ["x\n\tx.go:9", "a\n\ta.go:1"]) GoError.nil)).frames :=
  (New_no_usable "A" ["unknown"]
    (GoError.err "B" (some ["x\n\tx.go:9", "a\n\ta.go:1"]) GoError.nil) (by decide)).2

/-! ### The suffix trim -/

theorem labelledLoop_message (funcName : Bool) (l : List Frame) (prevMsg prevFunc : String) :
    ((labelledLoop funcName l prevMsg prevFunc).filter
        (fun x => x.1 = LineKind.message)).map Prod.snd
      = (((prevMsg :: l.map Frame.Message).zip (l.map Frame.Message)).filter
          (fun q => q.2 ≠ q.1)).map (fun q => displayMsg q.2 q.1) := by
  induction l generalizing prevMsg prevFunc with
  | nil => rfl
  | cons f rest ih =>
    have hrest := ih f.Message f.FuncName
    have hfun : ∀ (c : Prop) [Decidable c] (x : String),
        List.filter (fun y : LineKind × String => decide (y.1 = LineKind.message))
          (if c then [(LineKind.function, x)] else []) = [] := by
      intro c _ x; split <;> rfl
    have hsrc : ∀ (c : Prop) [Decidable c] (x : String),
        List.filter (fun y : LineKind × String => decide (y.1 = LineKind.message))
          (if c then [(LineKind.source, x)] else []) = [] := by
      intro c _ x; split <;> rfl
    simp only [labelledLoop, List.filter_append, List.map_append, hrest, List.map_cons,
      List.zip_cons_cons, List.filter_cons, hfun, hsrc, List.append_nil]
    by_cases hc : f.Message ≠ prevMsg
    · simp [hc]
    · simp [hc]

theorem suffix_trim (curr prev : String) (h : HasSuffix curr (": " ++ prev) = true) :
    prev.length + 2 ≤ curr.length ∧
    sliceTo curr (curr.length - prev.length - 2) ++ ": " ++ prev = curr := by
  simp only [HasSuffix, List.isSuffixOf_iff_suffix, String.data_append] at h
  obtain ⟨t, ht⟩ := h
  have h2 : (": " : String).data.length = 2 := by decide
  have hlen : curr.length = t.length + (2 + prev.length) := by
    show curr.data.length = t.length + (2 + prev.data.length)
    rw [← ht, List.length_append, List.length_append, h2]
  refine ⟨by omega, ?_⟩
  apply String.ext
  have hn : curr.length - prev.length - 2 = t.length := by omega
  simp only [sliceTo, hn, String.data_append]
  rw [← ht, List.take_left, List.append_assoc]

/-- C16: the suffix trim is safe and exact.  The message lines of `strings` are, in order,
`displayMsg curr prev` for every frame whose message `curr` differs from the message `prev`
of the frame before it (the empty string for the first frame).  Whenever `curr` ends with
`": " ++ prev` the slice bound `len(curr) - len(prev) - 2`, taken in the integers, lies
between `0` and `len(curr)`, the line is `curr` cut at that bound, and the line followed by
`": "` and `prev` is `curr`; otherwise the line is `curr` itself. -/
theorem displayMsg_safe_exact :
    (∀ (funcName : Bool) (st : StackTrace),
      messageLines funcName st
        = ((("" :: st.frames.map Frame.Message).zip (st.frames.map Frame.Message)).filter
            (fun q => q.2 ≠ q.1)).map (fun q => displayMsg q.2 q.1)) ∧
    (∀ (curr prev : String), HasSuffix curr (": " ++ prev) = true →
      (0 : Int) ≤ (curr.length : Int) - (prev.length : Int) - 2 ∧
      (curr.length : Int) - (prev.length : Int) - 2 ≤ (curr.length : Int) ∧
      ((curr.length - prev.length - 2 : Nat) : Int)
        = (curr.length : Int) - (prev.length : Int) - 2 ∧
      displayMsg curr prev = sliceTo curr (curr.length - prev.length - 2) ∧
      displayMsg curr prev ++ ": " ++ prev = curr) ∧
    (∀ (curr prev : String), HasSuffix curr (": " ++ prev) = false →
      displayMsg curr prev = curr) := by
  refine ⟨?_, ?_, ?_⟩
  · intro funcName st
    simp only [messageLines, labelledStrings_eq_loop]
    exact labelledLoop_message funcName st.frames "" ""
  · intro curr prev h
    obtain ⟨hle, heq⟩ := suffix_trim curr prev h
    have hd : displayMsg curr prev = sliceTo curr (curr.length - prev.length - 2) := by
      simp only [displayMsg, h, if_true]
    refine ⟨by omega, by omega, by omega, hd, ?_⟩
    rw [hd]
    exact heq
  · intro curr prev h
    simp only [displayMsg, h, Bool.false_eq_true, if_false]

/-- Instance of C16: the message `"error A: error B"` after `"error B"`. -/
theorem displayMsg_safe_exact_witness :
    displayMsg "error A: error B" "error B" ++ ": " ++ "error B" = "error A: error B" ∧
    displayMsg "error A" "error B" = "error A" :=
  ⟨(displayMsg_safe_exact.2.1 "error A: error B" "error B" (by decide)).2.2.2.2,
   displayMsg_safe_exact.2.2 "error A" "error B" (by decide)⟩

/-! ### A trace of one frame -/

/-- C17: the first frame is compared with an empty predecessor.  For a trace of the single
frame `f`, in either mode, `strings` emits no message line when `f.Message` is empty, emits
`f.Message` without its trailing `": "` when it ends with `": "`, and emits `f.Message`
itself otherwise; in verbose mode it emits no function-name line exactly when `f.Message`
and `f.FuncName` are both empty, and otherwise the line `f.FuncName`. -/
theorem strings_single_frame (funcName : Bool) (f : Frame) :
    messageLines funcName (some [f])
      = (if f.Message = "" then []
         else if HasSuffix f.Message ": " = true then
           [sliceTo f.Message (f.Message.length - 2)]
         else [f.Message]) ∧
    (HasSuffix f.Message ": " = true →
      sliceTo f.Message (f.Message.length - 2) ++ ": " = f.Message) ∧
    (functionLines true (some [f]) = [] ↔ f.Message = "" ∧ f.FuncName = "") ∧
    functionLines true (some [f])
      = (if f.Message = "" ∧ f.FuncName = "" then [] else [f.FuncName]) ∧
    strings funcName (some [f])
      = messageLines funcName (some [f])
        ++ (if funcName = true then functionLines true (some [f]) else [])
        ++ (if f.Source = "" then [] else ["\t" ++ f.Source]) := by
  have hd : displayMsg f.Message ""
      = if HasSuffix f.Message ": " = true then sliceTo f.Message (f.Message.length - 2)
        else f.Message := by
    simp only [displayMsg, String.append_empty]
    rfl
  have hmsg : messageLines funcName (some [f])
      = (if f.Message = "" then []
         else if HasSuffix f.Message ": " = true then
           [sliceTo f.Message (f.Message.length - 2)]
         else [f.Message]) := by
    simp only [messageLines, labelledStrings_eq_loop]
    rw [labelledLoop_message]
    simp only [StackTrace.frames, List.map_cons, List.map_nil, List.zip_cons_cons,
      List.zip_nil_right, List.filter_cons, List.filter_nil]
    by_cases h1 : f.Message = ""
    · simp [h1]
    · by_cases h2 : HasSuffix f.Message ": " = true
      · simp [h1, h2, hd]
      · simp [h1, h2, hd]
  have hfun : functionLines true (some [f])
      = (if f.Message = "" ∧ f.FuncName = "" then [] else [f.FuncName]) := by
    simp only [functionLines, labelledStrings_eq_loop]
    have h := labelledLoop_function [f] ⟨"", "", ""⟩
    simp only [StackTrace.frames]
    rw [h]
    simp only [List.zip_cons_cons, List.zip_nil_right, List.filter_cons, List.filter_nil]
    by_cases h1 : f.Message = ""
    · by_cases h2 : f.FuncName = ""
      · simp [h1, h2]
      · simp [h1, h2]
    · simp [h1]
  refine ⟨hmsg, ?_, ?_, hfun, ?_⟩
  · intro h
    have := (suffix_trim f.Message "" (by rw [String.append_empty]; exact h)).2
    simpa using this
  · rw [hfun]
    by_cases h : f.Message = "" ∧ f.FuncName = ""
    · simp [h]
    · simp [h]
  · rw [hmsg, hfun, strings_eq_loop]
    simp only [StackTrace.frames, stringsLoop, hd, List.append_nil]
    cases funcName <;> by_cases h1 : f.Message = "" <;> by_cases h2 : f.FuncName = "" <;>
      by_cases h3 : f.Source = "" <;> by_cases h4 : HasSuffix f.Message ": " = true <;>
      simp [h1, h2, h3, h4]

/-- Instance of C17: a single frame whose message ends in `": "`. -/
theorem strings_single_frame_witness :
    sliceTo "x: " ("x: ".length - 2) ++ ": " = "x: " :=
  (strings_single_frame true ⟨"x: ", "f", "a.go:1"⟩).2.1 (by decide)

/-! ### The structure of an extracted trace -/

theorem New_frames_take (msg : String) (stack : List String) (inner : GoError) :
    ∃ n, (New (GoError.err msg (some stack) inner)).frames
      = (New inner).frames.take n ++ ownFrames msg stack := by
  cases hT : New inner with
  | none =>
    refine ⟨0, ?_⟩
    rw [New_tracer_none msg stack inner hT]
    simp [StackTrace.frames]
  | some T =>
    rw [New_tracer_some msg stack inner T hT]
    cases mergeIdx (ownFrames msg stack) T with
    | none =>
      exact ⟨T.length, by simp [StackTrace.frames]⟩
    | some idx =>
      exact ⟨idx, by simp [StackTrace.frames]⟩

theorem take_flatten_parts (parts : List (List Frame)) (cs : List (String × List String))
    (h : List.Forall₂ (fun p c => p <+: ownFrames c.1 c.2) parts cs) (n : Nat) :
    ∃ parts', List.Forall₂ (fun p c => p <+: ownFrames c.1 c.2) parts' cs ∧
      parts'.flatten = parts.flatten.take n := by
  induction h generalizing n with
  | nil => exact ⟨[], List.Forall₂.nil, by simp⟩
  | @cons p c ps cs' hp _ ih =>
    obtain ⟨parts', hf, hj⟩ := ih (n - p.length)
    refine ⟨p.take n :: parts', List.Forall₂.cons ((List.take_prefix n p).trans hp) hf, ?_⟩
    rw [List.flatten_cons, List.flatten_cons, hj, List.take_append_eq_append_take]

theorem forall₂_concat (parts : List (List Frame)) (cs : List (String × List String))
    (h : List.Forall₂ (fun p c => p <+: ownFrames c.1 c.2) parts cs)
    (msg : String) (stack : List String) :
    List.Forall₂ (fun p c => p <+: ownFrames c.1 c.2) (parts ++ [ownFrames msg stack])
      (cs ++ [(msg, stack)]) := by
  induction h with
  | nil => exact List.Forall₂.cons (List.prefix_refl _) List.Forall₂.nil
  | cons hp _ ih => exact List.Forall₂.cons hp ih

theorem mem_ownFrames {msg : String} {stack : List String} {f : Frame}
    (h : f ∈ ownFrames msg stack) :
    ∃ s ∈ stack, usable s = true ∧ f = entryFrame msg s := by
  rw [ownFrames_eq_filterMap, List.mem_filterMap] at h
  obtain ⟨s, hs, hf⟩ := h
  split at hf
  · rename_i h2
    simp only [Option.some.injEq] at hf
    exact ⟨s, hs, by simp only [usable, decide_eq_true_eq]; omega, hf.symm⟩
  · simp at hf

theorem ownFrames_length (msg : String) (stack : List String) :
    (ownFrames msg stack).length = (stack.filter usable).length := by
  induction stack with
  | nil => rfl
  | cons s rest ih =>
    rw [ownFrames_cons, List.length_append, ih, appendFrame_nil, List.filter_cons]
    by_cases h : 2 ≤ (Split s "\n\t").length
    · have hu : usable s = true := by simp only [usable, decide_eq_true_eq]; omega
      simp [h, hu]; omega
    · have hu : usable s = false := by simp only [usable, decide_eq_false_iff_not]; omega
      simp [h, hu]

theorem New_parts (e : GoError) :
    ∃ parts : List (List Frame),
      List.Forall₂ (fun p c => p <+: ownFrames c.1 c.2) parts (captures e) ∧
      (New e).frames = parts.flatten ∧
      parts.getLast? = ((captures e).map (fun c => ownFrames c.1 c.2)).getLast? := by
  induction e with
  | nil => exact ⟨[], List.Forall₂.nil, rfl, rfl⟩
  | err msg tracer inner ih =>
    cases tracer with
    | none =>
      rw [New_not_tracer]
      exact ih
    | some stack =>
      obtain ⟨parts, hf, hj, _⟩ := ih
      obtain ⟨n, hn⟩ := New_frames_take msg stack inner
      obtain ⟨parts', hf', hj'⟩ := take_flatten_parts parts (captures inner) hf n
      refine ⟨parts' ++ [ownFrames msg stack], forall₂_concat parts' _ hf' msg stack, ?_, ?_⟩
      · rw [hn, hj, ← hj']
        simp
      · simp [captures]

theorem New_frame_origin (e : GoError) :
    ∀ f ∈ (New e).frames, ∃ c ∈ captures e, f ∈ ownFrames c.1 c.2 ∧ f.Message = c.1 ∧
      ∃ s ∈ c.2, usable s = true ∧ f.FuncName = (entryFrame c.1 s).FuncName ∧
        f.Source = (entryFrame c.1 s).Source := by
  induction e with
  | nil => intro f hf; simp [New, StackTrace.frames] at hf
  | err msg tracer inner ih =>
    cases tracer with
    | none =>
      rw [New_not_tracer]
      exact ih
    | some stack =>
      obtain ⟨n, hn⟩ := New_frames_take msg stack inner
      intro f hf
      rw [hn, List.mem_append] at hf
      rcases hf with hf | hf
      · obtain ⟨c, hc, h⟩ := ih f (List.mem_of_mem_take hf)
        exact ⟨c, by simp only [captures, List.mem_append]; exact Or.inl hc, h⟩
      · obtain ⟨s, hs, hu, hfs⟩ := mem_ownFrames hf
        refine ⟨(msg, stack), by simp [captures], hf, ?_, s, hs, hu, ?_, ?_⟩
        · rw [hfs]; rfl
        · rw [hfs]
        · rw [hfs]

theorem New_length_le (e : GoError) :
    (New e).frames.length ≤ ((captures e).map (fun c => (c.2.filter usable).length)).sum := by
  induction e with
  | nil => simp [New, StackTrace.frames]
  | err msg tracer inner ih =>
    cases tracer with
    | none =>
      rw [New_not_tracer]
      exact ih
    | some stack =>
      obtain ⟨n, hn⟩ := New_frames_take msg stack inner
      have hle := List.length_take_le' n (New inner).frames
      rw [hn, List.length_append, ownFrames_length]
      simp only [captures, List.map_append, List.map_cons, List.map_nil, List.sum_append,
        List.sum_cons, List.sum_nil]
      omega

/-- C15: the structure of every extracted trace.  For every error chain, with its errors
that implement `stackTracer` listed innermost first, `New` is the concatenation, in this
order, of one prefix (possibly empty) of the own frames of each of them, the prefix for
the outermost one being all of its own frames.  Hence every frame of the result has the
message of an error of the chain and the `FuncName` and `Source` of an entry this same
error captured, and the result has at most as many frames as the chain has captured
entries that pass the test of `New`. -/
theorem New_structure (e : GoError) :
    (∃ parts : List (List Frame),
      List.Forall₂ (fun p c => p <+: ownFrames c.1 c.2) parts (captures e) ∧
      (New e).frames = parts.flatten ∧
      parts.getLast? = ((captures e).map (fun c => ownFrames c.1 c.2)).getLast?) ∧
    (∀ f ∈ (New e).frames, ∃ c ∈ captures e, f ∈ ownFrames c.1 c.2 ∧ f.Message = c.1 ∧
      ∃ s ∈ c.2, usable s = true ∧ f.FuncName = (entryFrame c.1 s).FuncName ∧
        f.Source = (entryFrame c.1 s).Source) ∧
    (New e).frames.length ≤ ((captures e).map (fun c => (c.2.filter usable).length)).sum :=
  ⟨New_parts e, New_frame_origin e, New_length_le e⟩

/-- Instance of C15: a frame of the trace of a two-error chain comes from an error of the
chain, and the trace is no longer than the usable captured entries. -/
theorem New_structure_witness :
    (∃ c ∈ captures (GoError.err "A" (some ["a\n\ta.go:1", "main\n\tm.go:1"])
          (GoError.err "B" (some ["b\n\tb.go:2", "a\n\ta.go:1", "main\n\tm.go:1"])
            GoError.nil)),
      (⟨"B", "b", "b.go:2"⟩ : Frame) ∈ ownFrames c.1 c.2 ∧
      (⟨"B", "b", "b.go:2"⟩ : Frame).Message = c.1 ∧
      ∃ s ∈ c.2, usable s = true ∧
        (⟨"B", "b", "b.go:2"⟩ : Frame).FuncName = (entryFrame c.1 s).FuncName ∧
        (⟨"B", "b", "b.go:2"⟩ : Frame).Source = (entryFrame c.1 s).Source) :=
  (New_structure (GoError.err "A" (some ["a\n\ta.go:1", "main\n\tm.go:1"])
      (GoError.err "B" (some ["b\n\tb.go:2", "a\n\ta.go:1", "main\n\tm.go:1"])
        GoError.nil))).2.1 ⟨"B", "b", "b.go:2"⟩ (by decide)

end Stacktrace
